import Mathlib

/-!
Shallow embedding of the cache-geometry microbenchmark in `src/main.cpp`.

Modelling conventions:
* A buffer slot (`void *` in a `std::vector<void *>`) holds either the null
  pointer produced by value initialization (`none`) or the address of another
  slot of the same buffer, represented by that slot's index (`some idx`).
* Machine integers are `Nat`/`Int`; `sizeof(void*)` is kept as a parameter
  `ws` wherever the code divides or multiplies by it.
* Aborting `assert`s and undefined behaviour (out-of-bounds reads,
  dereferencing `end()` of an empty range, dereferencing null) are modelled
  by `Except`/`Option` error results.
* Wall-clock readings are nondeterministic inputs; they enter as oracle
  functions (`timer`, `clock`, `oracle`) supplying the measured values.
* The C++ `for` loops over unboundedly many iterations are translated with an
  explicit fuel argument that the wrappers instantiate with a bound provably
  larger than the number of iterations the C++ loop performs.
-/

/-- The only abort path of `mkTestBuffer`: its `assert(size > 0 && step > 0)`. -/
inductive BuildErr
  | assertFail
deriving DecidableEq

/-- A test buffer: each slot holds null (`none`) or the index of the slot whose
address is stored there. -/
abbrev Buffer := List (Option Nat)

/-- The construction loop of `mkTestBuffer`:
`for (long long i = size - 1, j = size - 1 - step; j >= 0; i = j, j -= step) {
   buffer[i] = &buffer[j]; buffer[j] = &buffer[size - 1]; }`.
The fuel argument bounds the iteration count; callers pass at least `size`,
which dominates the loop's `(size-1)/step + 1` iterations whenever `step > 0`. -/
def mkLoop (size step : Nat) : Nat → Nat → Int → Buffer → Buffer
  | 0, _, _, buf => buf
  | fuel + 1, i, j, buf =>
    if 0 ≤ j then
      mkLoop size step fuel j.toNat (j - step)
        ((buf.set i (some j.toNat)).set j.toNat (some (size - 1)))
    else buf

/-- Model of `mkTestBuffer(size, step)`: asserts `size > 0 && step > 0`, value-initializes
`size` slots to null, then runs the chain-construction loop. -/
def mkTestBuffer (size step : Nat) : Except BuildErr Buffer :=
  if 0 < size ∧ 0 < step then
    .ok (mkLoop size step size (size - 1) ((size : Int) - 1 - step) (List.replicate size none))
  else .error .assertFail

/-- One pointer load `*pos`: `none` once a null pointer was dereferenced. -/
def deref (buffer : Buffer) : Option Nat → Option Nat
  | none => none
  | some p => (buffer[p]?).join

/-- Iterated pointer chasing: the loop `for (...) pos = (size_t **) *pos;`. -/
def chaseN (buffer : Buffer) : Option Nat → Nat → Option Nat
  | pos, 0 => pos
  | pos, n + 1 => chaseN buffer (deref buffer pos) n

/-- Model of `touchTestBuffer(buffer, nTouches)`: start at `buffer[buffer.size() - 1]`,
chase `nTouches` links, and return the final load `*pos`. -/
def touchTestBuffer (buffer : Buffer) (nTouches : Nat) : Option Nat :=
  deref buffer (chaseN buffer (deref buffer (some (buffer.length - 1))) nTouches)

/-- The loop of `touchTestBufferTimed`: each iteration records one clock
reading (`clock i` is the measured duration of hop `i`) and performs one hop. -/
def touchTimedGo (buffer : Buffer) (clock : Nat → Int) :
    Option Nat → Nat → Nat → List Int × Option Nat
  | pos, _, 0 => ([], deref buffer pos)
  | pos, i, n + 1 =>
    let rest := touchTimedGo buffer clock (deref buffer pos) (i + 1) n
    (clock i :: rest.1, rest.2)

/-- Model of `touchTestBufferTimed(buffer, nTouches)`: same traversal as
`touchTestBuffer` but additionally returns the per-hop timing series. -/
def touchTestBufferTimed (buffer : Buffer) (nTouches : Nat) (clock : Nat → Int) :
    List Int × Option Nat :=
  touchTimedGo buffer clock (deref buffer (some (buffer.length - 1))) 0 nTouches

/-- Closed form of the buffer built by `mkTestBuffer size step`: slot `idx` is
linked if it lies on the descending chain `size-1, size-1-step, ...`; the chain
ends by pointing back at slot `size-1`; all other slots stay null. -/
def chainNext (size step idx : Nat) : Option Nat :=
  if step ≤ size - 1 ∧ idx ≤ size - 1 ∧ (size - 1 - idx) % step = 0 then
    if step ≤ idx then some (idx - step) else some (size - 1)
  else none

/-- The addresses reached after 1, 2, ..., `size` hops from the entry slot
(the last slot) of a buffer. -/
def entryVisits (size : Nat) (buffer : Buffer) : List (Option Nat) :=
  (List.range size).map fun k => chaseN buffer (some (size - 1)) (k + 1)

/-- The buffer is one closed cycle through all `size` slots: `size` hops from
the entry return to the entry's own address, and the first `size` hops visit
`size` pairwise-distinct addresses covering every slot. -/
def singleCycle (size : Nat) (buffer : Buffer) : Prop :=
  chaseN buffer (some (size - 1)) size = some (size - 1) ∧
  (entryVisits size buffer).Nodup ∧
  ∀ t, t < size → some t ∈ entryVisits size buffer

/-- Model of `struct RawLevelInfo { const size_t arraySizeBytes; const long long timeNanos; }`. -/
structure RawLevelInfo where
  arraySizeBytes : Nat
  timeNanos : Int
deriving DecidableEq

/-- The fixed touch cap `const size_t nTouches = 1000000;`. -/
def nTouchesC : Nat := 1000000

/-- The stride used by one probing round:
`std::max(size_t(1), size / nTouches)`. -/
def probeStep (size : Nat) : Nat := max 1 (size / nTouchesC)

/-- The probing loop header of `tryCacheLevelSizes`:
`for (size_t size = minSize; size <= maxSize; size += sizeStep)`.
Fuel-bounded; `probeSizes` passes `maxSize + 1`, enough whenever
`sizeStep > 0` (for `sizeStep = 0` the C++ loop never terminates). -/
def probeLoop (sizeStep maxSize : Nat) : Nat → Nat → List Nat
  | 0, _ => []
  | fuel + 1, size =>
    if size ≤ maxSize then size :: probeLoop sizeStep maxSize fuel (size + sizeStep) else []

/-- The slot counts probed by `tryCacheLevelSizes`: `minSize, 2*minSize, ...`
up to `maxSize`. -/
def probeSizes (minSize maxSize : Nat) : List Nat :=
  probeLoop minSize maxSize (maxSize + 1) minSize

/-- One round of `tryCacheLevelSizes`: build the buffer (its `assert` aborts the
whole run), traverse it twice with `nTouches` touches (warm-up and measured
pass; the traversal results are only printed), and record
`RawLevelInfo { size * sizeof(void*), elapsed }` with the elapsed time supplied
by the `timer` oracle. -/
def probeRound (ws : Nat) (timer : Nat → Int) (size : Nat) : Except BuildErr RawLevelInfo :=
  (mkTestBuffer size (probeStep size)).map fun buffer =>
    let _dummyPtr1 := touchTestBuffer buffer nTouchesC
    let _dummyPtr2 := touchTestBuffer buffer nTouchesC
    { arraySizeBytes := size * ws, timeNanos := timer size }

/-- Sequence the probing rounds, aborting on the first failed assertion. -/
def roundsM (ws : Nat) (timer : Nat → Int) : List Nat → Except BuildErr (List RawLevelInfo)
  | [] => .ok []
  | s :: rest => do
    let info ← probeRound ws timer s
    let others ← roundsM ws timer rest
    return info :: others

/-- Model of `tryCacheLevelSizes(minSizeBytes, maxSizeBytes)` with word size `ws`
(`sizeof(void*)`) and measured times supplied by `timer`. -/
def tryCacheLevelSizes (ws minSizeBytes maxSizeBytes : Nat) (timer : Nat → Int) :
    Except BuildErr (List RawLevelInfo) :=
  roundsM ws timer (probeSizes (minSizeBytes / ws) (maxSizeBytes / ws))

/-- The infos produced by the `main` scenario (8 KiB to 256 KiB, 8-byte words):
one record per probed slot count, whose time is whatever was measured. -/
def probeInfos (timer : Nat → Int) : List RawLevelInfo :=
  (probeSizes 1024 32768).map fun s => { arraySizeBytes := s * 8, timeNanos := timer s }

/-- Failure modes of `selectCacheSize`: the `assert(windowSize >= 2)`, the
out-of-bounds reads caused by the `size_t` wraparound of `diffs.size() - 2`
when `diffs.size() < 2`, and dereferencing `std::max_element` of an empty
range. -/
inductive SelErr
  | assertFail
  | oobRead
  | emptyMax
deriving DecidableEq

/-- The first-difference series of `selectCacheSize`: for `i in [1, n)`,
`{ infos[i].arraySizeBytes, infos[i].timeNanos - infos[i-1].timeNanos }`. -/
def diffsOf (infos : List RawLevelInfo) : List RawLevelInfo :=
  List.zipWith
    (fun prev curr =>
      { arraySizeBytes := curr.arraySizeBytes, timeNanos := curr.timeNanos - prev.timeNanos })
    infos infos.tail

/-- Default record used for in-range indexing (`getD`); every use is guarded by
an in-bounds proof, mirroring `operator[]` on valid indices. -/
def d0 : RawLevelInfo := { arraySizeBytes := 0, timeNanos := 0 }

/-- The windowed sum at index `i`:
`diffs[i].timeNanos + sum of diffs[j].timeNanos for j in [i+1-windowSize, i)`. -/
def windowSum (diffs : List RawLevelInfo) (windowSize i : Nat) : Int :=
  (diffs.getD i d0).timeNanos +
    (((List.range' (i + 1 - windowSize) (windowSize - 1)).map
      fun j => (diffs.getD j d0).timeNanos).sum)

/-- The windowed series of `selectCacheSize`: entries for
`i in [windowSize - 1, diffs.size() - 2)`, each pairing `diffs[i].arraySizeBytes`
with the windowed sum at `i`. -/
def windowedOf (diffs : List RawLevelInfo) (windowSize : Nat) : List RawLevelInfo :=
  (List.range' (windowSize - 1) (diffs.length - 2 - (windowSize - 1))).map fun i =>
    { arraySizeBytes := (diffs.getD i d0).arraySizeBytes
      timeNanos := windowSum diffs windowSize i }

/-- Model of `std::max_element` with comparator `x.timeNanos < y.timeNanos`: the first
element attaining the maximum, `none` on an empty range. -/
def maxElem : List RawLevelInfo → Option RawLevelInfo
  | [] => none
  | x :: xs => some (xs.foldl (fun m c => if m.timeNanos < c.timeNanos then c else m) x)

/-- Model of `selectCacheSize(infos, windowSize)`: assert `windowSize >= 2`, difference,
window, and return the `arraySizeBytes` of the maximal windowed entry. -/
def selectCacheSize (infos : List RawLevelInfo) (windowSize : Nat) : Except SelErr Nat :=
  if 2 ≤ windowSize then
    if (diffsOf infos).length < 2 then .error .oobRead
    else
      match maxElem (windowedOf (diffsOf infos) windowSize) with
      | none => .error .emptyMax
      | some m => .ok m.arraySizeBytes
  else .error .assertFail

/-- Failure mode of `calcCacheLineSize`: dereferencing `std::max_element` of an
empty per-hop difference series. -/
inductive LineErr
  | emptyMax
deriving DecidableEq

/-- Adjacent differences of a timing series:
`diffs.push_back(*it - *(it - 1))` over `it in [begin+1, end)`. -/
def jumpDiffs (times : List Int) : List Int :=
  List.zipWith (fun a b => b - a) times times.tail

/-- Model of `std::max_element` over `long long` values: first maximum, `none` on empty. -/
def maxElemInt : List Int → Option Int
  | [] => none
  | x :: xs => some (xs.foldl (fun m c => if m < c then c else m) x)

/-- The stride loop of `calcCacheLineSize`:
`for (step = 1; step < size; step *= 2)`. `lastMaxJump = none` models the
`std::numeric_limits<long long>::max()` sentinel; `oracle step` is the per-hop
timing series measured for that stride; `Int.tdiv` is C++ truncating division.
Fuel-bounded; the wrapper passes `size + 1`, which dominates the number of
doublings. -/
def calcLoop (ws size : Nat) (oracle : Nat → List Int) :
    Nat → Nat → Option Int → Except LineErr Nat
  | 0, step, _ => .ok (step * ws)
  | fuel + 1, step, lastMaxJump =>
    if step < size then
      match maxElemInt (jumpDiffs (oracle step)) with
      | none => .error .emptyMax
      | some mx =>
        match lastMaxJump with
        | some l =>
          if mx < Int.tdiv l 10 then .ok (step * ws)
          else calcLoop ws size oracle fuel (2 * step) (some mx)
        | none => calcLoop ws size oracle fuel (2 * step) (some mx)
    else .ok (step * ws)

/-- Model of `calcCacheLineSize(cacheSizeBytes)` with word size `ws` and measured per-hop
times supplied by `oracle`. -/
def calcCacheLineSize (ws cacheSizeBytes : Nat) (oracle : Nat → List Int) : Except LineErr Nat :=
  calcLoop ws (cacheSizeBytes / ws) oracle (cacheSizeBytes / ws + 1) 1 none

/-- The strides the loop of `calcCacheLineSize` actually measures:
`1, 2, 4, ...`, strictly below `size` (fuel-bounded like `calcLoop`). -/
def stridesTried (size : Nat) : Nat → Nat → List Nat
  | 0, _ => []
  | fuel + 1, step => if step < size then step :: stridesTried size fuel (2 * step) else []

/-- All strides measured by `calcCacheLineSize` for a given slot count. -/
def stridesOf (size : Nat) : List Nat := stridesTried size (size + 1) 1

/-- Whether the drop test of `calcCacheLineSize` fires between consecutive
strides `a` and `b`: `maxJump(b) < maxJump(a) / 10` (truncating division). -/
def dropAt (oracle : Nat → List Int) (a b : Nat) : Bool :=
  match maxElemInt (jumpDiffs (oracle a)), maxElemInt (jumpDiffs (oracle b)) with
  | some ma, some mb => decide (mb < Int.tdiv ma 10)
  | _, _ => false

/-- The measured maximum jump never drops below one tenth of its predecessor
anywhere along the stride sequence. -/
def noDrop (oracle : Nat → List Int) (strides : List Nat) : Prop :=
  List.Chain' (fun a b => dropAt oracle a b = false) strides

deriving instance DecidableEq for Except

/-- Kernel-reducible decision procedure for chained relations on explicit lists. -/
instance chainDec {α : Type} (R : α → α → Prop) [DecidableRel R] :
    ∀ l : List α, Decidable (List.Chain' R l)
  | [] => .isTrue List.chain'_nil
  | [_] => .isTrue (List.chain'_singleton _)
  | a :: b :: l =>
    @decidable_of_decidable_of_iff (R a b ∧ List.Chain' R (b :: l))
      (List.Chain' R (a :: b :: l))
      (@instDecidableAnd _ _ _ (chainDec R (b :: l))) List.chain'_cons.symm

instance (size : Nat) (buffer : Buffer) : Decidable (singleCycle size buffer) := by
  unfold singleCycle
  infer_instance

instance (oracle : Nat → List Int) (strides : List Nat) : Decidable (noDrop oracle strides) := by
  unfold noDrop
  infer_instance

/-- Concrete raw series with strictly increasing times whose windowed series is
not monotone (length 7, window 3). -/
def cexInfosMono : List RawLevelInfo :=
  [{ arraySizeBytes := 1, timeNanos := 0 }, { arraySizeBytes := 2, timeNanos := 100 },
   { arraySizeBytes := 3, timeNanos := 101 }, { arraySizeBytes := 4, timeNanos := 102 },
   { arraySizeBytes := 5, timeNanos := 103 }, { arraySizeBytes := 6, timeNanos := 104 },
   { arraySizeBytes := 7, timeNanos := 105 }]

/-- Concrete raw series with strictly increasing first differences (length 7). -/
def winInfosConvex : List RawLevelInfo :=
  [{ arraySizeBytes := 1, timeNanos := 0 }, { arraySizeBytes := 2, timeNanos := 1 },
   { arraySizeBytes := 3, timeNanos := 3 }, { arraySizeBytes := 4, timeNanos := 6 },
   { arraySizeBytes := 5, timeNanos := 10 }, { arraySizeBytes := 6, timeNanos := 15 },
   { arraySizeBytes := 7, timeNanos := 21 }]

/-- Concrete raw series of length `windowSize + 2 = 5` (window 3). -/
def cexInfosNarrow : List RawLevelInfo :=
  [{ arraySizeBytes := 1, timeNanos := 0 }, { arraySizeBytes := 2, timeNanos := 1 },
   { arraySizeBytes := 3, timeNanos := 2 }, { arraySizeBytes := 4, timeNanos := 3 },
   { arraySizeBytes := 5, timeNanos := 4 }]

/-- Concrete raw series of length `windowSize + 3 = 6` (window 3). -/
def winInfosWide : List RawLevelInfo :=
  [{ arraySizeBytes := 1, timeNanos := 0 }, { arraySizeBytes := 2, timeNanos := 1 },
   { arraySizeBytes := 3, timeNanos := 2 }, { arraySizeBytes := 4, timeNanos := 3 },
   { arraySizeBytes := 5, timeNanos := 4 }, { arraySizeBytes := 6, timeNanos := 5 }]

/-! ### Basic lemmas about indexing and traversal -/

theorem getD_set (l : Buffer) (n m : Nat) (a : Option Nat) :
    (l.set n a).getD m none = if n = m ∧ n < l.length then a else l.getD m none := by
  simp only [List.getD_eq_getElem?_getD, List.getElem?_set]
  by_cases h1 : n = m
  · subst h1
    by_cases h2 : n < l.length
    · simp [h2]
    · simp [h2, List.getElem?_eq_none (by omega : l.length ≤ n)]
  · simp [h1]

theorem chaseN_succ (buffer : Buffer) (pos : Option Nat) (n : Nat) :
    chaseN buffer pos (n + 1) = deref buffer (chaseN buffer pos n) := by
  induction n generalizing pos with
  | zero => rfl
  | succ k ih =>
    show chaseN buffer (deref buffer pos) (k + 1) = deref buffer (chaseN buffer (deref buffer pos) k)
    exact ih _

theorem chaseN_none (buffer : Buffer) : ∀ n, chaseN buffer none n = none
  | 0 => rfl
  | n + 1 => by
    show chaseN buffer (deref buffer none) n = none
    exact chaseN_none buffer n

/-! ### The closed form of the construction loop of mkTestBuffer -/

theorem mkLoop_spec (size step : Nat) (hstep : 0 < step) :
    ∀ fuel i (buf : Buffer), buf.length = size → i < size → i / step ≤ fuel →
      (mkLoop size step fuel i ((i : Int) - step) buf).length = size ∧
      ∀ idx, (mkLoop size step fuel i ((i : Int) - step) buf).getD idx none =
        if step ≤ i ∧ idx ≤ i ∧ (i - idx) % step = 0 then
          if step ≤ idx then some (idx - step) else some (size - 1)
        else buf.getD idx none := by
  intro fuel
  induction fuel with
  | zero =>
    intro i buf hlen hi hfuel
    have hlt : i < step := by
      by_contra hge
      have : 1 ≤ i / step := (Nat.one_le_div_iff hstep).mpr (by omega)
      omega
    refine ⟨by simpa [mkLoop] using hlen, fun idx => ?_⟩
    have hA : ¬ (step ≤ i ∧ idx ≤ i ∧ (i - idx) % step = 0) := by
      rintro ⟨h1, -, -⟩; omega
    simp [mkLoop, hA]
  | succ f ih =>
    intro i buf hlen hi hfuel
    by_cases hcase : step ≤ i
    · have hj0 : (0 : Int) ≤ (i : Int) - step := by omega
      have hjt : ((i : Int) - step).toNat = i - step := by omega
      have hjs : (i : Int) - step - step = ((i - step : Nat) : Int) - step := by omega
      have hunf : mkLoop size step (f + 1) i ((i : Int) - step) buf =
          mkLoop size step f (i - step) (((i - step : Nat) : Int) - step)
            ((buf.set i (some (i - step))).set (i - step) (some (size - 1))) := by
        rw [show mkLoop size step (f + 1) i ((i : Int) - step) buf =
          if (0 : Int) ≤ (i : Int) - step then
            mkLoop size step f ((i : Int) - step).toNat ((i : Int) - step - step)
              ((buf.set i (some ((i : Int) - step).toNat)).set
                ((i : Int) - step).toNat (some (size - 1)))
          else buf from rfl]
        rw [if_pos hj0, hjt, hjs]
      have hdiv : (i - step) / step ≤ f := by
        have := Nat.div_eq_sub_div hstep hcase
        omega
      obtain ⟨ihlen, ihget⟩ := ih (i - step)
        ((buf.set i (some (i - step))).set (i - step) (some (size - 1)))
        (by simp [hlen]) (by omega) hdiv
      refine ⟨by rw [hunf]; exact ihlen, fun idx => ?_⟩
      rw [hunf, ihget idx, getD_set, getD_set]
      simp only [List.length_set, hlen]
      by_cases hA' : step ≤ i - step ∧ idx ≤ i - step ∧ (i - step - idx) % step = 0
      · have ha1 := hA'.1
        have ha2 := hA'.2.1
        have ha3 := hA'.2.2
        rw [if_pos hA']
        have hdvd : step ∣ (i - idx) := by
          have h1 : step ∣ (i - step - idx) := Nat.dvd_iff_mod_eq_zero.mpr ha3
          have h2 : i - idx = (i - step - idx) + step := by omega
          rw [h2]; exact Nat.dvd_add h1 (Nat.dvd_refl step)
        have hAyes : step ≤ i ∧ idx ≤ i ∧ (i - idx) % step = 0 :=
          ⟨hcase, by omega, Nat.mod_eq_zero_of_dvd hdvd⟩
        rw [if_pos hAyes]
      · rw [if_neg hA']
        by_cases h1 : i - step = idx ∧ i - step < size
        · rw [if_pos h1]
          obtain ⟨h1, -⟩ := h1
          have hnotin : ¬ step ≤ i - step := by
            intro hin
            exact hA' ⟨hin, by omega, by
              rw [show i - step - idx = 0 by omega]; exact Nat.zero_mod step⟩
          have hmodA : (i - idx) % step = 0 := by
            rw [show i - idx = step by omega]; exact Nat.mod_self step
          have hAyes : step ≤ i ∧ idx ≤ i ∧ (i - idx) % step = 0 :=
            ⟨hcase, by omega, hmodA⟩
          rw [if_pos hAyes, if_neg (by omega : ¬ step ≤ idx)]
        · rw [if_neg h1]
          by_cases h2 : i = idx ∧ i < size
          · rw [if_pos h2]
            obtain ⟨h2, -⟩ := h2
            have hmodA : (i - idx) % step = 0 := by
              rw [show i - idx = 0 by omega]; exact Nat.zero_mod step
            have hAyes : step ≤ i ∧ idx ≤ i ∧ (i - idx) % step = 0 :=
              ⟨hcase, by omega, hmodA⟩
            rw [if_pos hAyes, if_pos (by omega : step ≤ idx)]
            subst h2; rfl
          · rw [if_neg h2]
            have hnA : ¬ (step ≤ i ∧ idx ≤ i ∧ (i - idx) % step = 0) := by
              rintro ⟨-, hle, hm⟩
              have hioi : idx ≠ i := by intro h; exact h2 ⟨h.symm, by omega⟩
              have hdvd : step ∣ (i - idx) := Nat.dvd_iff_mod_eq_zero.mpr hm
              have hge1 : step ≤ i - idx := Nat.le_of_dvd (by omega) hdvd
              have hne2 : idx ≠ i - step := by intro h; exact h1 ⟨h.symm, by omega⟩
              have hdvd2 : step ∣ (i - step - idx) := by
                have : i - step - idx = (i - idx) - step := by omega
                rw [this]; exact Nat.dvd_sub' hdvd (Nat.dvd_refl step)
              have hge2 : step ≤ i - step - idx := Nat.le_of_dvd (by omega) hdvd2
              exact hA' ⟨by omega, by omega, Nat.mod_eq_zero_of_dvd hdvd2⟩
            rw [if_neg hnA]
    · have hj0 : ¬ (0 : Int) ≤ (i : Int) - step := by omega
      refine ⟨?_, fun idx => ?_⟩
      · simp [mkLoop, hj0, hlen]
      · have hA : ¬ (step ≤ i ∧ idx ≤ i ∧ (i - idx) % step = 0) := by
          rintro ⟨h1, -, -⟩; omega
        simp [mkLoop, hj0, hA]

theorem mkTestBuffer_spec (size step : Nat) (hsize : 0 < size) (hstep : 0 < step) :
    ∀ buf, mkTestBuffer size step = .ok buf →
      buf.length = size ∧ ∀ idx, buf.getD idx none = chainNext size step idx := by
  intro buf hbuf
  unfold mkTestBuffer at hbuf
  rw [if_pos ⟨hsize, hstep⟩] at hbuf
  injection hbuf with hbuf
  subst hbuf
  have hcast : ((size : Int) - 1 - step) = (((size - 1 : Nat) : Int) - step) := by omega
  rw [hcast]
  have hfuel : (size - 1) / step ≤ size := by
    have := Nat.div_le_self (size - 1) step
    omega
  obtain ⟨hlen, hget⟩ := mkLoop_spec size step hstep size (size - 1)
    (List.replicate size none) (by simp) (by omega) hfuel
  refine ⟨hlen, fun idx => ?_⟩
  rw [hget idx]
  have hrep : (List.replicate size (none : Option Nat)).getD idx none = none := by
    simp [List.getD_eq_getElem?_getD, List.getElem?_replicate]
    split <;> rfl
  rw [hrep]
  unfold chainNext
  rfl

theorem mkTestBuffer_degenerate (size step : Nat) (hsize : 0 < size) (hstep : size ≤ step) :
    mkTestBuffer size step = .ok (List.replicate size none) := by
  unfold mkTestBuffer
  rw [if_pos ⟨hsize, by omega⟩]
  obtain ⟨n, rfl⟩ : ∃ n, size = n + 1 := ⟨size - 1, by omega⟩
  rw [show mkLoop (n + 1) step (n + 1) (n + 1 - 1) (((n + 1 : Nat) : Int) - 1 - step)
        (List.replicate (n + 1) none) =
      if (0 : Int) ≤ ((n + 1 : Nat) : Int) - 1 - step then
        mkLoop (n + 1) step n (((n + 1 : Nat) : Int) - 1 - step).toNat
          (((n + 1 : Nat) : Int) - 1 - step - step)
          (((List.replicate (n + 1) none).set (n + 1 - 1)
              (some (((n + 1 : Nat) : Int) - 1 - step).toNat)).set
            (((n + 1 : Nat) : Int) - 1 - step).toNat (some (n + 1 - 1)))
      else List.replicate (n + 1) none from rfl]
  rw [if_neg (by omega)]

theorem deref_chainNext (size step : Nat) (buf : Buffer) (hsize : 0 < size)
    (hlen : buf.length = size) (hget : ∀ idx, buf.getD idx none = chainNext size step idx) :
    ∀ p, deref buf (some p) = chainNext size step p := by
  intro p
  by_cases hp : p < buf.length
  · have h1 : buf[p]? = some (buf.getD p none) := by
      rw [List.getElem?_eq_getElem hp]
      simp [List.getD_eq_getElem?_getD, List.getElem?_eq_getElem hp]
    show (buf[p]?).join = chainNext size step p
    rw [h1, hget p]
    rfl
  · have h1 : buf[p]? = none := List.getElem?_eq_none (by omega)
    have h2 : chainNext size step p = none := by
      unfold chainNext
      rw [if_neg]
      rintro ⟨-, hle, -⟩
      omega
    show (buf[p]?).join = chainNext size step p
    rw [h1, h2]
    rfl

theorem chase_spec (size step : Nat) (buf : Buffer) (hstep : 1 ≤ step)
    (hse : step ≤ size - 1)
    (hd : ∀ p, deref buf (some p) = chainNext size step p) :
    ∀ k, chaseN buf (some (size - 1)) k =
      some ((size - 1) - k % ((size - 1) / step + 1) * step) := by
  obtain ⟨m, hm⟩ : ∃ m, (size - 1) / step = m := ⟨_, rfl⟩
  rw [hm]
  obtain ⟨r, hr⟩ : ∃ r, (size - 1) % step = r := ⟨_, rfl⟩
  have hm1 : 1 ≤ m := by rw [← hm]; exact (Nat.one_le_div_iff (by omega)).mpr hse
  have hdm : step * m + r = size - 1 := by rw [← hm, ← hr]; exact Nat.div_add_mod _ _
  have hrlt : r < step := by rw [← hr]; exact Nat.mod_lt _ (by omega)
  intro k
  induction k with
  | zero => simp [chaseN]
  | succ k ih =>
    rw [chaseN_succ, ih, hd]
    obtain ⟨q, hq⟩ : ∃ q, k % (m + 1) = q := ⟨_, rfl⟩
    rw [hq]
    have hqlt : q < m + 1 := by rw [← hq]; exact Nat.mod_lt _ (by omega)
    have hqs : q * step ≤ m * step := Nat.mul_le_mul_right _ (by omega)
    have hms : m * step = step * m := Nat.mul_comm _ _
    have hmod0 : (size - 1 - (size - 1 - q * step)) % step = 0 := by
      rw [show size - 1 - (size - 1 - q * step) = q * step by omega]
      exact Nat.mul_mod_left _ _
    have hcond : step ≤ size - 1 ∧ size - 1 - q * step ≤ size - 1 ∧
        (size - 1 - (size - 1 - q * step)) % step = 0 := ⟨hse, by omega, hmod0⟩
    unfold chainNext
    rw [if_pos hcond]
    have hk1 : (k + 1) % (m + 1) = (q + 1) % (m + 1) := by
      rw [Nat.add_mod k 1, hq, Nat.mod_eq_of_lt (by omega : 1 < m + 1)]
    by_cases hcase : q < m
    · have hq1s : (q + 1) * step = q * step + step := Nat.succ_mul _ _
      have hq1le : (q + 1) * step ≤ m * step := Nat.mul_le_mul_right _ (by omega)
      rw [if_pos (by omega : step ≤ size - 1 - q * step)]
      rw [hk1, Nat.mod_eq_of_lt (by omega : q + 1 < m + 1)]
      congr 1
      omega
    · have hqeq : q = m := by omega
      have hqm : q * step = m * step := by rw [hqeq]
      rw [if_neg (by omega : ¬ step ≤ size - 1 - q * step)]
      rw [hk1, hqeq, Nat.mod_self]
      simp

theorem touch_replicate_none (size : Nat) (hsize : 0 < size) (n : Nat) :
    touchTestBuffer (List.replicate size (none : Option Nat)) n = none := by
  unfold touchTestBuffer
  have h0 : deref (List.replicate size (none : Option Nat))
      (some ((List.replicate size (none : Option Nat)).length - 1)) = none := by
    show ((List.replicate size (none : Option Nat))[(List.replicate size
      (none : Option Nat)).length - 1]?).join = none
    rw [List.length_replicate, List.getElem?_replicate, if_pos (by omega : size - 1 < size)]
    rfl
  rw [h0, chaseN_none]
  rfl

theorem touchTimedGo_spec (buffer : Buffer) (clock : Nat → Int) :
    ∀ n pos i, (touchTimedGo buffer clock pos i n).2 = deref buffer (chaseN buffer pos n) ∧
      (touchTimedGo buffer clock pos i n).1.length = n := by
  intro n
  induction n with
  | zero => intro pos i; exact ⟨rfl, rfl⟩
  | succ k ih =>
    intro pos i
    obtain ⟨h2, h1⟩ := ih (deref buffer pos) (i + 1)
    constructor
    · show (touchTimedGo buffer clock (deref buffer pos) (i + 1) k).2 =
        deref buffer (chaseN buffer (deref buffer pos) k)
      exact h2
    · show (touchTimedGo buffer clock (deref buffer pos) (i + 1) k).1.length + 1 = k + 1
      rw [h1]

/-! ### Lemmas about the cache-size inference -/

theorem diffsOf_length (infos : List RawLevelInfo) :
    (diffsOf infos).length = infos.length - 1 := by
  unfold diffsOf
  rw [List.length_zipWith, List.length_tail]
  omega

theorem windowedOf_length (diffs : List RawLevelInfo) (w : Nat) :
    (windowedOf diffs w).length = diffs.length - 2 - (w - 1) := by
  unfold windowedOf
  rw [List.length_map, List.length_range']

theorem maxElem_foldl_mem (x : RawLevelInfo) (xs : List RawLevelInfo) :
    xs.foldl (fun m c => if m.timeNanos < c.timeNanos then c else m) x ∈ x :: xs := by
  induction xs generalizing x with
  | nil => exact List.mem_cons_self _ _
  | cons y ys ih =>
    show List.foldl _ (if x.timeNanos < y.timeNanos then y else x) ys ∈ x :: y :: ys
    rcases List.mem_cons.mp (ih (if x.timeNanos < y.timeNanos then y else x)) with h1 | h1
    · rw [h1]
      by_cases hxy : x.timeNanos < y.timeNanos
      · simp [hxy]
      · simp [hxy]
    · exact List.mem_cons_of_mem _ (List.mem_cons_of_mem _ h1)

theorem maxElem_mem (l : List RawLevelInfo) (h : l ≠ []) :
    ∃ m, maxElem l = some m ∧ m ∈ l := by
  match l with
  | [] => exact absurd rfl h
  | x :: xs => exact ⟨_, rfl, maxElem_foldl_mem x xs⟩

theorem maxElem_chain' : ∀ l : List RawLevelInfo,
    List.Chain' (fun a b => a.timeNanos < b.timeNanos) l → maxElem l = l.getLast?
  | [], _ => rfl
  | [_], _ => rfl
  | x :: y :: ys, h => by
    obtain ⟨hxy, htail⟩ := List.chain'_cons.mp h
    have h1 : maxElem (x :: y :: ys) = maxElem (y :: ys) := by
      show some (List.foldl _ (if x.timeNanos < y.timeNanos then y else x) ys) =
        some (List.foldl _ y ys)
      rw [if_pos hxy]
    rw [h1, maxElem_chain' (y :: ys) htail, List.getLast?_cons_cons]

theorem mem_zipWith {α β γ : Type} (f : α → β → γ) :
    ∀ (l₁ : List α) (l₂ : List β) (x : γ), x ∈ List.zipWith f l₁ l₂ →
      ∃ a b, a ∈ l₁ ∧ b ∈ l₂ ∧ x = f a b
  | [], l₂, x, hx => by simp [List.zipWith] at hx
  | _ :: _, [], x, hx => by simp [List.zipWith] at hx
  | a :: as, b :: bs, x, hx => by
    rw [List.zipWith_cons_cons] at hx
    rcases List.mem_cons.mp hx with h | h
    · exact ⟨a, b, List.mem_cons_self _ _, List.mem_cons_self _ _, h⟩
    · obtain ⟨a', b', ha, hb, hx'⟩ := mem_zipWith f as bs x h
      exact ⟨a', b', List.mem_cons_of_mem _ ha, List.mem_cons_of_mem _ hb, hx'⟩

theorem diffs_size_mem (infos : List RawLevelInfo) (x : RawLevelInfo) (hx : x ∈ diffsOf infos) :
    x.arraySizeBytes ∈ infos.map (fun v => v.arraySizeBytes) := by
  obtain ⟨a, b, ha, hb, hx'⟩ := mem_zipWith _ infos infos.tail x hx
  subst hx'
  exact List.mem_map.mpr ⟨b, List.mem_of_mem_tail hb, rfl⟩

theorem windowed_size_mem (diffs : List RawLevelInfo) (w : Nat) (x : RawLevelInfo)
    (hx : x ∈ windowedOf diffs w) :
    x.arraySizeBytes ∈ diffs.map (fun v => v.arraySizeBytes) := by
  unfold windowedOf at hx
  obtain ⟨i, hi, hx'⟩ := List.mem_map.mp hx
  have hib := List.mem_range'_1.mp hi
  have hilt : i < diffs.length := by omega
  subst hx'
  have h1 : diffs.getD i d0 = diffs[i] := by
    rw [List.getD_eq_getElem?_getD, List.getElem?_eq_getElem hilt, Option.getD_some]
  have hmem : diffs.getD i d0 ∈ diffs := by
    rw [h1]
    exact List.getElem_mem hilt
  exact List.mem_map.mpr ⟨_, hmem, rfl⟩

theorem select_ok (infos : List RawLevelInfo) (w : Nat) (hw : 2 ≤ w)
    (hn : w + 3 ≤ infos.length) :
    ∃ m, maxElem (windowedOf (diffsOf infos) w) = some m ∧
      selectCacheSize infos w = .ok m.arraySizeBytes ∧
      m ∈ windowedOf (diffsOf infos) w := by
  have hdl : (diffsOf infos).length = infos.length - 1 := diffsOf_length infos
  have hwl : (windowedOf (diffsOf infos) w).length = (diffsOf infos).length - 2 - (w - 1) :=
    windowedOf_length _ _
  have hne : windowedOf (diffsOf infos) w ≠ [] := by
    intro h
    rw [h] at hwl
    simp only [List.length_nil] at hwl
    omega
  obtain ⟨m, hmax, hmem⟩ := maxElem_mem _ hne
  refine ⟨m, hmax, ?_, hmem⟩
  unfold selectCacheSize
  rw [if_pos hw, if_neg (by omega : ¬ (diffsOf infos).length < 2), hmax]

theorem windowSum_eq (diffs : List RawLevelInfo) (w i : Nat) (hw : 1 ≤ w) (hi : w - 1 ≤ i) :
    windowSum diffs w i =
      ((List.range' (i + 1 - w) w).map fun j => (diffs.getD j d0).timeNanos).sum := by
  unfold windowSum
  rw [show List.range' (i + 1 - w) w = List.range' (i + 1 - w) ((w - 1) + 1) by
    rw [show w - 1 + 1 = w from by omega]]
  rw [List.range'_1_concat, List.map_append, List.sum_append]
  rw [show i + 1 - w + (w - 1) = i from by omega]
  simp [Int.add_comm]

theorem windowSum_step (diffs : List RawLevelInfo) (w i : Nat) (hw : 2 ≤ w) (hi : w - 1 ≤ i) :
    windowSum diffs w (i + 1) + (diffs.getD (i + 1 - w) d0).timeNanos =
      windowSum diffs w i + (diffs.getD (i + 1) d0).timeNanos := by
  rw [windowSum_eq diffs w i (by omega) hi, windowSum_eq diffs w (i + 1) (by omega) (by omega)]
  have h1 : List.range' (i + 1 - w) w = (i + 1 - w) :: List.range' (i + 2 - w) (w - 1) :=
    calc List.range' (i + 1 - w) w = List.range' (i + 1 - w) ((w - 1) + 1) := by
          rw [show (w - 1) + 1 = w from by omega]
      _ = (i + 1 - w) :: List.range' ((i + 1 - w) + 1) (w - 1) := List.range'_succ _ _ _
      _ = (i + 1 - w) :: List.range' (i + 2 - w) (w - 1) := by
          rw [show (i + 1 - w) + 1 = i + 2 - w from by omega]
  have h2 : List.range' (i + 1 + 1 - w) w = List.range' (i + 2 - w) (w - 1) ++ [i + 1] :=
    calc List.range' (i + 1 + 1 - w) w = List.range' (i + 2 - w) ((w - 1) + 1) := by
          rw [show (w - 1) + 1 = w from by omega, show i + 1 + 1 - w = i + 2 - w from by omega]
      _ = List.range' (i + 2 - w) (w - 1) ++ [(i + 2 - w) + (w - 1)] := List.range'_1_concat _ _
      _ = List.range' (i + 2 - w) (w - 1) ++ [i + 1] := by
          rw [show (i + 2 - w) + (w - 1) = i + 1 from by omega]
  rw [h1, h2]
  simp only [List.map_append, List.sum_append, List.map_cons, List.sum_cons, List.map_nil,
    List.sum_nil]
  omega

theorem chain'_map_range' {α : Type} (R : α → α → Prop) (f : Nat → α) :
    ∀ (n s : Nat), (∀ k, k + 1 < n → R (f (s + k)) (f (s + k + 1))) →
      List.Chain' R ((List.range' s n).map f)
  | 0, s, _ => by simp
  | 1, s, _ => by simp
  | n + 2, s, h => by
    rw [List.range'_succ, List.map_cons, List.range'_succ, List.map_cons]
    refine List.chain'_cons.mpr ⟨?_, ?_⟩
    · have h0 := h 0 (by omega)
      simpa using h0
    · rw [← List.map_cons, ← List.range'_succ]
      refine chain'_map_range' R f (n + 1) (s + 1) (fun k hk => ?_)
      have hk1 := h (k + 1) (by omega)
      rw [show s + (k + 1) = s + 1 + k from by omega] at hk1
      exact hk1

theorem getD_time_map (diffs : List RawLevelInfo) (j : Nat) (hj : j < diffs.length) :
    (diffs.map (fun x => x.timeNanos)).getD j 0 = (diffs.getD j d0).timeNanos := by
  rw [List.getD_eq_getElem?_getD, List.getD_eq_getElem?_getD,
    List.getElem?_eq_getElem (by simpa using hj), List.getElem?_eq_getElem hj,
    Option.getD_some, Option.getD_some, List.getElem_map]

theorem pairwise_lt_getD (l : List Int) (h : List.Pairwise (fun a b : Int => a < b) l) :
    ∀ j k, j < k → k < l.length → l.getD j 0 < l.getD k 0 := by
  intro j k hjk hk
  have hj : j < l.length := by omega
  have hget := List.pairwise_iff_get.mp h ⟨j, hj⟩ ⟨k, hk⟩ (Fin.mk_lt_mk.mpr hjk)
  rw [List.getD_eq_getElem?_getD, List.getD_eq_getElem?_getD,
    List.getElem?_eq_getElem hj, List.getElem?_eq_getElem hk, Option.getD_some,
    Option.getD_some]
  simpa using hget

/-! ### Lemmas about the cache-line-size inference -/

theorem maxElemInt_some (l : List Int) (h : l ≠ []) : ∃ m, maxElemInt l = some m := by
  match l with
  | [] => exact absurd rfl h
  | x :: xs => exact ⟨_, rfl⟩

theorem calcLoop_zero (ws size : Nat) (oracle : Nat → List Int) (step : Nat)
    (last : Option Int) : calcLoop ws size oracle 0 step last = .ok (step * ws) := rfl

theorem calcLoop_exit (ws size : Nat) (oracle : Nat → List Int) (f step : Nat)
    (last : Option Int) (hge : ¬ step < size) :
    calcLoop ws size oracle (f + 1) step last = .ok (step * ws) := by
  unfold calcLoop
  rw [if_neg hge]

theorem calcLoop_succ_lt (ws size : Nat) (oracle : Nat → List Int) (f step : Nat)
    (last : Option Int) (mx : Int) (hlt : step < size)
    (hmx : maxElemInt (jumpDiffs (oracle step)) = some mx)
    (hnd : ∀ l, last = some l → ¬ mx < Int.tdiv l 10) :
    calcLoop ws size oracle (f + 1) step last =
      calcLoop ws size oracle f (2 * step) (some mx) := by
  show (if step < size then
      match maxElemInt (jumpDiffs (oracle step)) with
      | none => Except.error LineErr.emptyMax
      | some mx =>
        match last with
        | some l => if mx < Int.tdiv l 10 then Except.ok (step * ws)
            else calcLoop ws size oracle f (2 * step) (some mx)
        | none => calcLoop ws size oracle f (2 * step) (some mx)
    else Except.ok (step * ws)) = calcLoop ws size oracle f (2 * step) (some mx)
  rw [if_pos hlt, hmx]
  cases last with
  | none => rfl
  | some l =>
    show (if mx < Int.tdiv l 10 then Except.ok (step * ws)
        else calcLoop ws size oracle f (2 * step) (some mx)) =
      calcLoop ws size oracle f (2 * step) (some mx)
    rw [if_neg (hnd l rfl)]

theorem stridesTried_succ_lt (size f step : Nat) (h : step < size) :
    stridesTried size (f + 1) step = step :: stridesTried size f (2 * step) := by
  show (if step < size then step :: stridesTried size f (2 * step) else []) =
    step :: stridesTried size f (2 * step)
  rw [if_pos h]

theorem calcLoop_noDrop (ws size : Nat) (oracle : Nat → List Int) :
    ∀ fuel j (last : Option Int),
      size ≤ 2 ^ j * 2 ^ fuel →
      (∀ s ∈ stridesTried size fuel (2 ^ j), jumpDiffs (oracle s) ≠ []) →
      List.Chain' (fun a b => dropAt oracle a b = false) (stridesTried size fuel (2 ^ j)) →
      (2 ^ j < size → ∀ l mx, last = some l →
        maxElemInt (jumpDiffs (oracle (2 ^ j))) = some mx → ¬ mx < Int.tdiv l 10) →
      calcLoop ws size oracle fuel (2 ^ j) last = .ok (2 ^ max j (Nat.clog 2 size) * ws) := by
  intro fuel
  induction fuel with
  | zero =>
    intro j last hsz _ _ _
    have hj : Nat.clog 2 size ≤ j := by
      refine (Nat.le_pow_iff_clog_le (by norm_num)).mp ?_
      simpa using hsz
    rw [calcLoop_zero, Nat.max_eq_left hj]
  | succ f ih =>
    intro j last hsz hne hchain hlast
    have hpow : 2 * 2 ^ j = 2 ^ (j + 1) := by rw [Nat.pow_succ]; ring
    by_cases hlt : 2 ^ j < size
    · have hclog : j < Nat.clog 2 size := (Nat.pow_lt_iff_lt_clog (by norm_num)).mp hlt
      have hstr : stridesTried size (f + 1) (2 ^ j) =
          2 ^ j :: stridesTried size f (2 ^ (j + 1)) := by
        rw [stridesTried_succ_lt size f (2 ^ j) hlt, hpow]
      have hne0 : jumpDiffs (oracle (2 ^ j)) ≠ [] :=
        hne _ (by rw [hstr]; exact List.mem_cons_self _ _)
      obtain ⟨mx, hmx⟩ := maxElemInt_some _ hne0
      have hsz' : size ≤ 2 ^ (j + 1) * 2 ^ f := by
        have heq : (2 : Nat) ^ j * 2 ^ (f + 1) = 2 ^ (j + 1) * 2 ^ f := by ring
        omega
      have hne' : ∀ s ∈ stridesTried size f (2 ^ (j + 1)), jumpDiffs (oracle s) ≠ [] := by
        intro s hs
        exact hne s (by rw [hstr]; exact List.mem_cons_of_mem _ hs)
      have hchain' : List.Chain' (fun a b => dropAt oracle a b = false)
          (stridesTried size f (2 ^ (j + 1))) := by
        have hc := hchain
        rw [hstr] at hc
        exact (List.chain'_cons'.mp hc).2
      have hlast' : 2 ^ (j + 1) < size → ∀ l mx', some mx = some l →
          maxElemInt (jumpDiffs (oracle (2 ^ (j + 1)))) = some mx' →
          ¬ mx' < Int.tdiv l 10 := by
        intro hlt2 l mx' hl hmx'
        injection hl with hl
        subst hl
        have hf1 : 1 ≤ f := by
          by_contra hf0
          have hf : f = 0 := by omega
          subst hf
          simp only [pow_zero, Nat.mul_one] at hsz'
          omega
        obtain ⟨f', rfl⟩ : ∃ f', f = f' + 1 := ⟨f - 1, by omega⟩
        have hstr2 : stridesTried size (f' + 1) (2 ^ (j + 1)) =
            2 ^ (j + 1) :: stridesTried size f' (2 * 2 ^ (j + 1)) :=
          stridesTried_succ_lt size f' (2 ^ (j + 1)) hlt2
        have hpair : dropAt oracle (2 ^ j) (2 ^ (j + 1)) = false := by
          have hc := hchain
          rw [hstr] at hc
          refine (List.chain'_cons'.mp hc).1 (2 ^ (j + 1)) ?_
          rw [hstr2]
          rfl
        unfold dropAt at hpair
        rw [hmx, hmx'] at hpair
        simpa using hpair
      have hrec := ih (j + 1) (some mx) hsz' hne' hchain' hlast'
      have hmaxeq : max (j + 1) (Nat.clog 2 size) = max j (Nat.clog 2 size) := by
        rw [Nat.max_eq_right (by omega), Nat.max_eq_right (by omega)]
      rw [hmaxeq] at hrec
      rw [calcLoop_succ_lt ws size oracle f (2 ^ j) last mx hlt hmx
        (fun l hl => hlast hlt l mx hl hmx), hpow]
      exact hrec
    · have hj : Nat.clog 2 size ≤ j :=
        (Nat.le_pow_iff_clog_le (by norm_num)).mp (by omega)
      rw [calcLoop_exit ws size oracle f (2 ^ j) last hlt, Nat.max_eq_left hj]

theorem calcLoop_ge (ws size : Nat) (oracle : Nat → List Int) :
    ∀ fuel step (last : Option Int) v, 1 ≤ step →
      calcLoop ws size oracle fuel step last = .ok v → ws ≤ v := by
  intro fuel
  induction fuel with
  | zero =>
    intro step last v hstep hok
    rw [calcLoop_zero] at hok
    injection hok with hok
    subst hok
    have h1 : 1 * ws ≤ step * ws := Nat.mul_le_mul_right ws hstep
    omega
  | succ f ih =>
    intro step last v hstep hok
    by_cases hlt : step < size
    · cases hmax : maxElemInt (jumpDiffs (oracle step)) with
      | none =>
        rw [show calcLoop ws size oracle (f + 1) step last =
          (if step < size then
            match maxElemInt (jumpDiffs (oracle step)) with
            | none => Except.error LineErr.emptyMax
            | some mx =>
              match last with
              | some l => if mx < Int.tdiv l 10 then Except.ok (step * ws)
                  else calcLoop ws size oracle f (2 * step) (some mx)
              | none => calcLoop ws size oracle f (2 * step) (some mx)
          else Except.ok (step * ws)) from rfl, if_pos hlt, hmax] at hok
        exact absurd hok (by simp)
      | some mx =>
        cases last with
        | none =>
          rw [calcLoop_succ_lt ws size oracle f step none mx hlt hmax
            (fun l hl => by simp at hl)] at hok
          exact ih (2 * step) (some mx) v (by omega) hok
        | some l =>
          by_cases hdrop : mx < Int.tdiv l 10
          · rw [show calcLoop ws size oracle (f + 1) step (some l) =
              (if step < size then
                match maxElemInt (jumpDiffs (oracle step)) with
                | none => Except.error LineErr.emptyMax
                | some mx =>
                  if mx < Int.tdiv l 10 then Except.ok (step * ws)
                  else calcLoop ws size oracle f (2 * step) (some mx)
              else Except.ok (step * ws)) from rfl, if_pos hlt, hmax] at hok
            have hok' : (if mx < Int.tdiv l 10 then Except.ok (step * ws)
                else calcLoop ws size oracle f (2 * step) (some mx)) =
                Except.ok (ε := LineErr) v := hok
            rw [if_pos hdrop] at hok'
            injection hok' with hok'
            subst hok'
            have h1 : 1 * ws ≤ step * ws := Nat.mul_le_mul_right ws hstep
            omega
          · rw [calcLoop_succ_lt ws size oracle f step (some l) mx hlt hmax
              (fun l' hl => by injection hl with hl; subst hl; exact hdrop)] at hok
            exact ih (2 * step) (some mx) v (by omega) hok
    · rw [calcLoop_exit ws size oracle f step last hlt] at hok
      injection hok with hok
      subst hok
      have h1 : 1 * ws ≤ step * ws := Nat.mul_le_mul_right ws hstep
      omega

/-! ### Lemmas about the probing rounds -/

theorem roundsM_ok (ws : Nat) (timer : Nat → Int) :
    ∀ sizes : List Nat, (∀ s ∈ sizes, 0 < s) →
      roundsM ws timer sizes =
        .ok (sizes.map fun s => { arraySizeBytes := s * ws, timeNanos := timer s }) := by
  intro sizes
  induction sizes with
  | nil => intro _; rfl
  | cons s rest ih =>
    intro h
    have hs : 0 < s := h s (List.mem_cons_self _ _)
    have hstep : 0 < probeStep s := le_max_left 1 _
    have hb : mkTestBuffer s (probeStep s) =
        .ok (mkLoop s (probeStep s) s (s - 1) ((s : Int) - 1 - probeStep s)
          (List.replicate s none)) := by
      unfold mkTestBuffer
      rw [if_pos ⟨hs, hstep⟩]
    show (do
      let info ← probeRound ws timer s
      let others ← roundsM ws timer rest
      return info :: others) = _
    rw [ih (fun x hx => h x (List.mem_cons_of_mem _ hx))]
    unfold probeRound
    rw [hb]
    rfl

theorem windowed_chain (infos : List RawLevelInfo) (w : Nat) (hw : 2 ≤ w)
    (hmono : ∀ j k, j < k → k < (diffsOf infos).length →
      ((diffsOf infos).getD j d0).timeNanos < ((diffsOf infos).getD k d0).timeNanos) :
    List.Chain' (fun a b : Int => a < b)
      ((windowedOf (diffsOf infos) w).map fun x => x.timeNanos) := by
  unfold windowedOf
  rw [List.map_map]
  refine chain'_map_range' _ _ _ _ (fun k hk => ?_)
  show windowSum (diffsOf infos) w (w - 1 + k) < windowSum (diffsOf infos) w (w - 1 + k + 1)
  have hstep := windowSum_step (diffsOf infos) w (w - 1 + k) hw (by omega)
  rw [show w - 1 + k + 1 - w = k from by omega] at hstep
  have hlt := hmono k (w - 1 + k + 1) (by omega) (by omega)
  omega

/-! ### Claim theorems -/

/-- C1 (counterexample): the claim fails as stated. At `size = 4`, `step = 2`
(which satisfies `size > 0` and `1 ≤ step < size`), the buffer built by
`mkTestBuffer` is not a single cycle through all four slots: the chain from the
entry alternates between slots 3 and 1, revisiting slot 1 before 4 hops and
never visiting slots 0 and 2. -/
theorem mkTestBuffer_single_cycle_cex :
    0 < 4 ∧ 1 ≤ 2 ∧ 2 < 4 ∧ mkTestBuffer 4 2 = .ok [none, some 3, none, some 1] ∧
      ¬ singleCycle 4 [none, some 3, none, some 1] :=
  ⟨by decide, by decide, by decide, rfl, by decide⟩

/-- C1 (amended): for every slot count `size ≥ 2` and stride `step = 1`, the
buffer built by `mkTestBuffer size 1` is a single closed cycle: `size` hops
from the entry (the last slot) return to the entry's own address, visiting all
`size` slots exactly once with no repeat before `size` hops. (For any
`2 ≤ step < size`, the cycle has only `(size-1)/step + 1` slots, see the
counterexample and C10.) -/
theorem mkTestBuffer_step_one_single_cycle :
    ∀ size buf, 2 ≤ size → mkTestBuffer size 1 = .ok buf → singleCycle size buf := by
  intro size buf hsize hbuf
  obtain ⟨hlen, hget⟩ := mkTestBuffer_spec size 1 (by omega) (by omega) buf hbuf
  have hd := deref_chainNext size 1 buf (by omega) hlen hget
  have hchase := chase_spec size 1 buf (by omega) (by omega) hd
  have hchase' : ∀ k, chaseN buf (some (size - 1)) k = some (size - 1 - k % size) := by
    intro k
    have h := hchase k
    rw [Nat.div_one, show size - 1 + 1 = size from by omega, Nat.mul_one] at h
    exact h
  refine ⟨?_, ?_, ?_⟩
  · rw [hchase' size, Nat.mod_self, Nat.sub_zero]
  · unfold entryVisits
    refine List.Nodup.map_on ?_ (List.nodup_range size)
    intro k1 hk1 k2 hk2 heq
    rw [List.mem_range] at hk1 hk2
    rw [hchase' (k1 + 1), hchase' (k2 + 1)] at heq
    injection heq with heq
    have hm1 : (k1 + 1) % size = if k1 + 1 = size then 0 else k1 + 1 := by
      by_cases h : k1 + 1 = size
      · rw [if_pos h, h, Nat.mod_self]
      · rw [if_neg h, Nat.mod_eq_of_lt (by omega)]
    have hm2 : (k2 + 1) % size = if k2 + 1 = size then 0 else k2 + 1 := by
      by_cases h : k2 + 1 = size
      · rw [if_pos h, h, Nat.mod_self]
      · rw [if_neg h, Nat.mod_eq_of_lt (by omega)]
    rw [hm1, hm2] at heq
    split_ifs at heq <;> omega
  · intro t ht
    unfold entryVisits
    rw [List.mem_map]
    by_cases hte : t = size - 1
    · subst hte
      refine ⟨size - 1, List.mem_range.mpr (by omega), ?_⟩
      rw [hchase' (size - 1 + 1), show size - 1 + 1 = size from by omega, Nat.mod_self]
      exact congrArg some (by omega)
    · refine ⟨size - 2 - t, List.mem_range.mpr (by omega), ?_⟩
      rw [hchase' (size - 2 - t + 1),
        Nat.mod_eq_of_lt (by omega : size - 2 - t + 1 < size)]
      exact congrArg some (by omega)

/-- C1 (witness): the amended claim at `size = 3`, `step = 1`. -/
theorem mkTestBuffer_step_one_single_cycle_witness :
    singleCycle 3 [some 2, some 0, some 1] :=
  mkTestBuffer_step_one_single_cycle 3 [some 2, some 0, some 1] (by decide) rfl

/-- C9: for every buffer and hop count, the bulk traversal `touchTestBuffer`
and the per-step traversal `touchTestBufferTimed` follow the identical chain
and return the same final value, and the timed variant records exactly
`nTouches` clock entries. -/
theorem touch_timed_equiv :
    ∀ (buffer : Buffer) (n : Nat) (clock : Nat → Int),
      (touchTestBufferTimed buffer n clock).2 = touchTestBuffer buffer n ∧
      (touchTestBufferTimed buffer n clock).1.length = n := by
  intro buffer n clock
  obtain ⟨h2, h1⟩ := touchTimedGo_spec buffer clock n
    (deref buffer (some (buffer.length - 1))) 0
  exact ⟨h2, h1⟩

/-- C10: for `size > 0` and `step > 0`: if `step ≥ size` the construction loop
never runs, every slot of the returned buffer is null, and any traversal
dereferences null on the first hop (modelled as `none`); if `1 ≤ step < size`,
the chain starting from the entry slot's stored address `size-1-step` returns
to that address after exactly `(size-1)/step + 1` hops (no earlier), and every
address it visits is congruent to `size - 1` modulo `step`. -/
theorem mkTestBuffer_chain_structure :
    ∀ size step, 0 < size → 0 < step →
      (size ≤ step → mkTestBuffer size step = .ok (List.replicate size none) ∧
        deref (List.replicate size none) (some (size - 1)) = none ∧
        ∀ n, touchTestBuffer (List.replicate size none) n = none) ∧
      (step < size → ∀ buf, mkTestBuffer size step = .ok buf →
        deref buf (some (size - 1)) = some (size - 1 - step) ∧
        chaseN buf (some (size - 1 - step)) ((size - 1) / step + 1) =
          some (size - 1 - step) ∧
        (∀ k, 0 < k → k < (size - 1) / step + 1 →
          chaseN buf (some (size - 1 - step)) k ≠ some (size - 1 - step)) ∧
        (∀ k p, chaseN buf (some (size - 1 - step)) k = some p →
          p % step = (size - 1) % step)) := by
  intro size step hsize hstep
  constructor
  · intro hdeg
    refine ⟨mkTestBuffer_degenerate size step hsize hdeg, ?_,
      fun n => touch_replicate_none size hsize n⟩
    show ((List.replicate size (none : Option Nat))[size - 1]?).join = none
    rw [List.getElem?_replicate, if_pos (by omega : size - 1 < size)]
    rfl
  · intro hlt buf hbuf
    obtain ⟨hlen, hget⟩ := mkTestBuffer_spec size step hsize hstep buf hbuf
    have hd := deref_chainNext size step buf hsize hlen hget
    have hse : step ≤ size - 1 := by omega
    have hchase := chase_spec size step buf (by omega) hse hd
    have hm1 : 1 ≤ (size - 1) / step := (Nat.one_le_div_iff (by omega)).mpr hse
    have hdm : step * ((size - 1) / step) + (size - 1) % step = size - 1 :=
      Nat.div_add_mod (size - 1) step
    have hcomm : ((size - 1) / step) * step = step * ((size - 1) / step) :=
      Nat.mul_comm _ _
    have hfirst : deref buf (some (size - 1)) = some (size - 1 - step) := by
      rw [hd (size - 1)]
      unfold chainNext
      have hcnd : step ≤ size - 1 ∧ size - 1 ≤ size - 1 ∧ (size - 1 - (size - 1)) % step = 0 :=
        ⟨hse, le_refl _, by rw [Nat.sub_self]; exact Nat.zero_mod step⟩
      rw [if_pos hcnd, if_pos hse]
    have hshift : ∀ k, chaseN buf (some (size - 1 - step)) k =
        chaseN buf (some (size - 1)) (k + 1) := by
      intro k
      show chaseN buf (some (size - 1 - step)) k =
        chaseN buf (deref buf (some (size - 1))) k
      rw [hfirst]
    refine ⟨hfirst, ?_, ?_, ?_⟩
    · rw [hshift, hchase]
      have hmod : ((size - 1) / step + 1 + 1) % ((size - 1) / step + 1) = 1 := by
        rw [show (size - 1) / step + 1 + 1 = ((size - 1) / step + 1) + 1 from rfl,
          Nat.add_mod_left]
        exact Nat.mod_eq_of_lt (by omega)
      rw [hmod, Nat.one_mul]
    · intro k hk0 hkm heq
      rw [hshift, hchase] at heq
      injection heq with heq
      by_cases hke : k + 1 = (size - 1) / step + 1
      · rw [hke, Nat.mod_self, Nat.zero_mul] at heq
        omega
      · rw [Nat.mod_eq_of_lt (by omega : k + 1 < (size - 1) / step + 1)] at heq
        have h1 : (k + 1) * step ≤ ((size - 1) / step) * step :=
          Nat.mul_le_mul_right _ (by omega)
        have h4 : (k + 1) * step = k * step + step := Nat.succ_mul _ _
        have h5 : 1 * step ≤ k * step := Nat.mul_le_mul_right _ (by omega)
        omega
    · intro k p heq
      rw [hshift, hchase] at heq
      injection heq with heq
      obtain ⟨m, hm⟩ : ∃ m, (size - 1) / step = m := ⟨_, rfl⟩
      rw [hm] at heq
      obtain ⟨q, hq⟩ : ∃ q, (k + 1) % (m + 1) = q := ⟨_, rfl⟩
      rw [hq] at heq
      have hqlt : q < m + 1 := by rw [← hq]; exact Nat.mod_lt _ (by omega)
      have h1 : q * step ≤ m * step := Nat.mul_le_mul_right _ (by omega)
      have h2 : m * step = step * m := Nat.mul_comm _ _
      have h3 : step * m + (size - 1) % step = size - 1 := by
        rw [← hm]; exact Nat.div_add_mod _ _
      have h4 : q * step = step * q := Nat.mul_comm _ _
      rw [← heq, show q * step = step * q from h4]
      exact Nat.sub_mul_mod (by omega)

/-- C10 (witness): the chained branch at `size = 5`, `step = 2`: the cycle
through the stored address returns after `(5-1)/2 + 1 = 3` hops. -/
theorem mkTestBuffer_chain_structure_witness :
    chaseN [some 4, none, some 0, none, some 2] (some 2) 3 = some 2 :=
  (((mkTestBuffer_chain_structure 5 2 (by decide) (by decide)).2 (by decide)
    [some 4, none, some 0, none, some 2] rfl).2).1

/-- C2 (counterexample): the claim fails as stated. With
`minSizeBytes = 8*1024`, `maxSizeBytes = 256*1024` and 8-byte words,
`tryCacheLevelSizes` produces 32 RawLevelInfo records (one per multiple of
8 KiB from 8 KiB to 256 KiB inclusive), not 33. -/
theorem probe_point_count_cex :
    (tryCacheLevelSizes 8 8192 262144 (fun _ => 0)).map List.length = .ok 32 ∧
      (32 : Nat) ≠ 33 :=
  ⟨rfl, by decide⟩

/-- C2 (amended): with `minSizeBytes = 8*1024` and `maxSizeBytes = 256*1024`,
for every timing outcome, `tryCacheLevelSizes` produces exactly one
RawLevelInfo per multiple of 8 KiB from 8 KiB to 256 KiB inclusive — 32 points
— and `selectCacheSize` over that series with `windowSize = 3` succeeds and
returns the `arraySizeBytes` of one of those probed points, never an
interpolated or out-of-range value. -/
theorem probe_end_to_end :
    ∀ timer : Nat → Int,
      tryCacheLevelSizes 8 8192 262144 timer = .ok (probeInfos timer) ∧
      (probeInfos timer).length = 32 ∧
      (probeInfos timer).map (fun x => x.arraySizeBytes) =
        (List.range 32).map (fun k => (k + 1) * 8192) ∧
      (selectCacheSize (probeInfos timer) 3).isOk = true ∧
      (∀ v, selectCacheSize (probeInfos timer) 3 = .ok v →
        v ∈ (probeInfos timer).map (fun x => x.arraySizeBytes)) := by
  intro timer
  have hsizes : ∀ s ∈ probeSizes 1024 32768, 0 < s := by decide
  have h1 : tryCacheLevelSizes 8 8192 262144 timer = .ok (probeInfos timer) := by
    show roundsM 8 timer (probeSizes (8192 / 8) (262144 / 8)) = _
    rw [show (8192 : Nat) / 8 = 1024 from rfl, show (262144 : Nat) / 8 = 32768 from rfl]
    exact roundsM_ok 8 timer (probeSizes 1024 32768) hsizes
  have hlen : (probeInfos timer).length = 32 := by
    show ((probeSizes 1024 32768).map _).length = 32
    rw [List.length_map]
    rfl
  have hmap : (probeInfos timer).map (fun x => x.arraySizeBytes) =
      (List.range 32).map (fun k => (k + 1) * 8192) := by
    show ((probeSizes 1024 32768).map _).map _ = _
    rw [List.map_map]
    show (probeSizes 1024 32768).map (fun s => s * 8) =
      (List.range 32).map (fun k => (k + 1) * 8192)
    decide
  refine ⟨h1, hlen, hmap, ?_, ?_⟩
  · obtain ⟨m, hmax, hsel, hmem⟩ :=
      select_ok (probeInfos timer) 3 (by omega) (by rw [hlen]; omega)
    rw [hsel]
    rfl
  · intro v hv
    obtain ⟨m, hmax, hsel, hmem⟩ :=
      select_ok (probeInfos timer) 3 (by omega) (by rw [hlen]; omega)
    rw [hsel] at hv
    injection hv with hv
    subst hv
    have h2 := windowed_size_mem (diffsOf (probeInfos timer)) 3 m hmem
    obtain ⟨d, hd, hdeq⟩ := List.mem_map.mp h2
    rw [← hdeq]
    exact diffs_size_mem (probeInfos timer) d hd

/-- C2 (witness): the amended claim instantiated with the zero timer. -/
theorem probe_end_to_end_witness :
    tryCacheLevelSizes 8 8192 262144 (fun _ => 0) = .ok (probeInfos (fun _ => 0)) :=
  (probe_end_to_end (fun _ => 0)).1

/-- C5 (counterexample): the claim fails as stated. An input with exactly
`windowSize + 2 = 5` raw points yields an empty windowed series (non-emptiness
needs at least `windowSize + 3` points). -/
theorem windowed_empty_bound_cex :
    cexInfosNarrow.length = 3 + 2 ∧ windowedOf (diffsOf cexInfosNarrow) 3 = [] :=
  ⟨rfl, by decide⟩

/-- C5 (amended): for `windowSize ≥ 2`, the windowed series inside
`selectCacheSize` is empty exactly when the input has fewer than
`windowSize + 3` raw points; with at least `windowSize + 3` raw points it is
non-empty and the final maximum selection succeeds (returns `.ok`, never
reaching the out-of-bounds or empty-max undefined behaviour). -/
theorem windowed_empty_iff :
    ∀ (infos : List RawLevelInfo) w, 2 ≤ w →
      (windowedOf (diffsOf infos) w = [] ↔ infos.length < w + 3) ∧
      (w + 3 ≤ infos.length → windowedOf (diffsOf infos) w ≠ [] ∧
        (selectCacheSize infos w).isOk = true) := by
  intro infos w hw
  have hdl := diffsOf_length infos
  have hwl := windowedOf_length (diffsOf infos) w
  constructor
  · constructor
    · intro h
      rw [h] at hwl
      simp only [List.length_nil] at hwl
      omega
    · intro h
      have hz : (windowedOf (diffsOf infos) w).length = 0 := by omega
      exact List.length_eq_zero.mp hz
  · intro hn
    obtain ⟨m, hmax, hsel, hmem⟩ := select_ok infos w hw hn
    refine ⟨?_, by rw [hsel]; rfl⟩
    intro h
    rw [h] at hmem
    exact absurd hmem (List.not_mem_nil m)

/-- C5 (witness): the amended claim at a 6-point input with window 3. -/
theorem windowed_empty_iff_witness :
    windowedOf (diffsOf winInfosWide) 3 ≠ [] ∧
      (selectCacheSize winInfosWide 3).isOk = true :=
  (windowed_empty_iff winInfosWide 3 (by decide)).2 (by decide)

/-- C4 (counterexample): the claim fails as stated. `cexInfosMono` has strictly
increasing `timeNanos` and is long enough for window 3, yet the windowed-sum
series inside `selectCacheSize` is `[102, 3]`, which is not non-decreasing. -/
theorem windowed_monotone_cex :
    List.Chain' (fun a b : Int => a < b) (cexInfosMono.map fun x => x.timeNanos) ∧
      3 + 3 ≤ cexInfosMono.length ∧
      ¬ List.Chain' (fun a b : Int => a ≤ b)
        ((windowedOf (diffsOf cexInfosMono) 3).map fun x => x.timeNanos) :=
  ⟨by decide, by decide, by decide⟩

/-- C4 (amended): for every input whose consecutive `timeNanos` differences are
strictly increasing (and with at least `windowSize + 3` points for
`windowSize ≥ 2`), the windowed-sum series inside `selectCacheSize` is strictly
increasing — in particular non-decreasing — and `selectCacheSize` returns the
`arraySizeBytes` of the last windowed entry, the true maximum of the windowed
series. -/
theorem windowed_convex_monotone :
    ∀ (infos : List RawLevelInfo) w, 2 ≤ w → w + 3 ≤ infos.length →
      List.Pairwise (fun a b : Int => a < b) ((diffsOf infos).map fun x => x.timeNanos) →
      List.Chain' (fun a b : Int => a < b)
        ((windowedOf (diffsOf infos) w).map fun x => x.timeNanos) ∧
      List.Chain' (fun a b : Int => a ≤ b)
        ((windowedOf (diffsOf infos) w).map fun x => x.timeNanos) ∧
      selectCacheSize infos w =
        .ok (((windowedOf (diffsOf infos) w).getLastD d0).arraySizeBytes) := by
  intro infos w hw hn hpw
  have hmono : ∀ j k, j < k → k < (diffsOf infos).length →
      ((diffsOf infos).getD j d0).timeNanos < ((diffsOf infos).getD k d0).timeNanos := by
    intro j k hjk hk
    have h := pairwise_lt_getD _ hpw j k hjk (by rw [List.length_map]; exact hk)
    rw [getD_time_map _ j (by omega), getD_time_map _ k hk] at h
    exact h
  have hchain := windowed_chain infos w hw hmono
  have hchainRec : List.Chain' (fun a b : RawLevelInfo => a.timeNanos < b.timeNanos)
      (windowedOf (diffsOf infos) w) := (List.chain'_map _).mp hchain
  refine ⟨hchain, List.Chain'.imp (fun a b h => le_of_lt h) hchain, ?_⟩
  obtain ⟨m, hmax, hsel, hmem⟩ := select_ok infos w hw hn
  have hlast := maxElem_chain' _ hchainRec
  rw [hmax] at hlast
  have hgl : (windowedOf (diffsOf infos) w).getLastD d0 = m := by
    rw [List.getLastD_eq_getLast?, ← hlast]
    rfl
  rw [hgl]
  exact hsel

/-- C4 (witness): the amended claim at a convex 7-point input with window 3. -/
theorem windowed_convex_monotone_witness :
    List.Chain' (fun a b : Int => a < b)
      ((windowedOf (diffsOf winInfosConvex) 3).map fun x => x.timeNanos) ∧
    List.Chain' (fun a b : Int => a ≤ b)
      ((windowedOf (diffsOf winInfosConvex) 3).map fun x => x.timeNanos) ∧
    selectCacheSize winInfosConvex 3 =
      .ok (((windowedOf (diffsOf winInfosConvex) 3).getLastD d0).arraySizeBytes) :=
  windowed_convex_monotone winInfosConvex 3 (by decide) (by decide) (by decide)

/-- C3 (counterexample): the claim fails as stated. With `cacheSizeBytes = 32`
and 8-byte words (`size = 4` slots) and a constant timing oracle, no drop is
ever observed; the strides tried are `[1, 2]`, whose last element is `2`, yet
`calcCacheLineSize` returns `32 = 4 * 8` — the first power-of-two stride at or
above the slot count times the word size — not `2 * 8 = 16`. -/
theorem calc_line_final_stride_cex :
    noDrop (fun _ => [0, 0]) (stridesOf (32 / 8)) ∧
      ((stridesOf (32 / 8)).all
        fun s => !(jumpDiffs ((fun _ : Nat => [(0 : Int), 0]) s)).isEmpty) = true ∧
      (stridesOf (32 / 8)).getLast? = some 2 ∧
      calcCacheLineSize 8 32 (fun _ => [0, 0]) = .ok 32 ∧
      (32 : Nat) ≠ 2 * 8 :=
  ⟨by decide, by decide, by decide, by decide, by decide⟩

/-- C3 (amended): if, over all strides tried (powers of two strictly below the
slot count), `calcCacheLineSize` never observes a maximum per-hop jump smaller
than one tenth of the previous stride's maximum jump (and each stride's
difference series is non-empty), then it returns the smallest power-of-two
stride greater than or equal to the slot count — twice the final stride tried,
for slot counts of at least 2 — converted to bytes. -/
theorem calc_line_no_drop_result :
    ∀ ws cacheSizeBytes (oracle : Nat → List Int),
      noDrop oracle (stridesOf (cacheSizeBytes / ws)) →
      (∀ s ∈ stridesOf (cacheSizeBytes / ws), jumpDiffs (oracle s) ≠ []) →
      calcCacheLineSize ws cacheSizeBytes oracle =
        .ok (2 ^ Nat.clog 2 (cacheSizeBytes / ws) * ws) := by
  intro ws c oracle hnd hne
  have h := calcLoop_noDrop ws (c / ws) oracle (c / ws + 1) 0 none ?hsz ?hne2 ?hch ?hlast
  case hsz =>
    rw [show (2 : Nat) ^ 0 = 1 from rfl, Nat.one_mul]
    have h1 : c / ws < 2 ^ (c / ws) := Nat.lt_two_pow _
    have h2 : (2 : Nat) ^ (c / ws) ≤ 2 ^ (c / ws + 1) :=
      Nat.pow_le_pow_right (by omega) (by omega)
    omega
  case hne2 =>
    rw [show (2 : Nat) ^ 0 = 1 from rfl]
    exact hne
  case hch =>
    rw [show (2 : Nat) ^ 0 = 1 from rfl]
    exact hnd
  case hlast =>
    intro _ l mx hl
    exact absurd hl (by simp)
  rw [Nat.max_eq_right (Nat.zero_le _)] at h
  rw [show (2 : Nat) ^ 0 = 1 from rfl] at h
  exact h

/-- C3 (witness): the amended claim at `cacheSizeBytes = 32`, 8-byte words,
constant oracle. -/
theorem calc_line_no_drop_result_witness :
    calcCacheLineSize 8 32 (fun _ => [0, 0]) = .ok (2 ^ Nat.clog 2 (32 / 8) * 8) :=
  calc_line_no_drop_result 8 32 (fun _ => [0, 0]) (by decide) (by decide)

/-- C6: for every probing range, every round of `tryCacheLevelSizes` that
builds its test buffer does so with a stride satisfying
`1 ≤ step ≤ slotCount`, and the number of touches per traversal is the fixed
constant `nTouches`, which never exceeds 1,000,000. (Rounds with `size = 0`,
possible only when `minSizeBytes < sizeof(void*)`, abort on the assert of
`mkTestBuffer` before any buffer is built.) -/
theorem probe_stride_bounds :
    ∀ ws minSizeBytes maxSizeBytes size buf,
      size ∈ probeSizes (minSizeBytes / ws) (maxSizeBytes / ws) →
      mkTestBuffer size (probeStep size) = .ok buf →
      1 ≤ probeStep size ∧ probeStep size ≤ size ∧ nTouchesC ≤ 1000000 := by
  intro ws minB maxB size buf hmem hok
  have hpos : 0 < size := by
    by_contra h
    have hz : size = 0 := by omega
    subst hz
    unfold mkTestBuffer at hok
    rw [if_neg (by simp)] at hok
    exact absurd hok (by simp)
  refine ⟨le_max_left 1 _, ?_, le_refl _⟩
  have hdle : size / nTouchesC ≤ size := Nat.div_le_self _ _
  exact max_le hpos hdle

/-- C6 (witness): the bounds at the first round of the range 8–16 bytes with
8-byte words (slot count 1, stride 1). -/
theorem probe_stride_bounds_witness :
    1 ≤ probeStep 1 ∧ probeStep 1 ≤ 1 ∧ nTouchesC ≤ 1000000 :=
  probe_stride_bounds 8 8 16 1 [none] (by decide) rfl

/-- C7: for every word size, `cacheSizeBytes` input, and per-hop timing
oracle, whenever `calcCacheLineSize` returns a value it is at least the
machine word size (the smallest stride attempted is 1 slot). -/
theorem calc_line_lower_bound :
    ∀ ws cacheSizeBytes (oracle : Nat → List Int) v,
      calcCacheLineSize ws cacheSizeBytes oracle = .ok v → ws ≤ v := by
  intro ws c oracle v h
  exact calcLoop_ge ws (c / ws) oracle (c / ws + 1) 1 none v (by omega) h

/-- C7 (witness): the lower bound at `cacheSizeBytes = 32`, 8-byte words. -/
theorem calc_line_lower_bound_witness :
    calcCacheLineSize 8 32 (fun _ => [0, 0]) = .ok 32 ∧ 8 ≤ 32 :=
  ⟨rfl, calc_line_lower_bound 8 32 (fun _ => [0, 0]) 32 rfl⟩

/-- C8: precondition violations fail fast via assertion, not via a returned
error value: `mkTestBuffer` hits its assert exactly when `size = 0` or
`step = 0`, `selectCacheSize` hits its assert exactly when `windowSize < 2`,
and under valid preconditions `mkTestBuffer` returns a buffer normally. -/
theorem assert_preconditions :
    ∀ size step (infos : List RawLevelInfo) w,
      (mkTestBuffer size step = .error .assertFail ↔ size = 0 ∨ step = 0) ∧
      (selectCacheSize infos w = .error .assertFail ↔ w < 2) ∧
      (0 < size → 0 < step → (mkTestBuffer size step).isOk = true) := by
  intro size step infos w
  refine ⟨?_, ?_, ?_⟩
  · unfold mkTestBuffer
    by_cases h : 0 < size ∧ 0 < step
    · rw [if_pos h]
      constructor
      · intro hc
        exact absurd hc (by simp)
      · intro hor
        exact absurd hor (by omega)
    · rw [if_neg h]
      constructor
      · intro _
        omega
      · intro _
        rfl
  · unfold selectCacheSize
    by_cases h : 2 ≤ w
    · rw [if_pos h]
      by_cases h2 : (diffsOf infos).length < 2
      · rw [if_pos h2]
        constructor
        · intro hc
          injection hc with hc
          exact absurd hc (by simp)
        · omega
      · rw [if_neg h2]
        cases hm : maxElem (windowedOf (diffsOf infos) w) with
        | none =>
          constructor
          · intro hc
            injection hc with hc
            exact absurd hc (by simp)
          · omega
        | some m =>
          constructor
          · intro hc
            exact absurd hc (by simp)
          · omega
    · rw [if_neg h]
      constructor
      · intro _
        omega
      · intro _
        rfl
  · intro h1 h2
    unfold mkTestBuffer
    rw [if_pos ⟨h1, h2⟩]
    rfl

/-- C8 (witness): valid preconditions at `size = 3`, `step = 2`. -/
theorem assert_preconditions_witness : (mkTestBuffer 3 2).isOk = true :=
  (assert_preconditions 3 2 [] 5).2.2 (by decide) (by decide)
